import Mathlib

/-!
Verification of the yt-vd downloader (src/index.js) against its specification.

The Process Output Classifier lives in the stdout data handler of
`downloadVideo` (src/index.js lines 317-388).  Each data chunk is converted
to a string, split on newline characters, and every resulting piece — note:
including a trailing partial line, nothing is buffered — is run through a
sequence of independent `if` branches that print progress events.

The embedding below models lines and chunks as `List Char`, the closure
state (`lastProgress`, `isDownloading`, `isMerging`) as a structure, and the
console output as a list of abstract events.  Percentages are exact
rationals (JS numbers are binary doubles; every numeral yt-dlp prints has a
short decimal expansion, and the comparisons performed on them —
`Math.floor` equality and `=== 100` — agree with the exact rational
semantics for such values).
-/

namespace YtVd

/-- JS whitespace class (the part relevant to `\s`, `trim` and `split`
output: space, tab, CR, LF, vertical tab, form feed). -/
def jsWhitespace (c : Char) : Bool :=
  c = ' ' || c = '\t' || c = '\r' || c = '\n' || c = '\x0b' || c = '\x0c'

/-- JS `hay.includes(needle)`: substring test. -/
def containsSub (hay needle : List Char) : Bool :=
  if needle.isPrefixOf hay then true
  else
    match hay with
    | [] => false
    | _ :: t => containsSub t needle

/-- JS `output.split("\n")` on a chunk: the list of newline-separated
pieces.  Always nonempty; a chunk ending in `'\n'` yields a final `[]`. -/
def splitLines (cs : List Char) : List (List Char) :=
  match cs with
  | [] => [[]]
  | c :: rest =>
    if c = '\n' then [] :: splitLines rest
    else
      match splitLines rest with
      | l :: ls => (c :: l) :: ls
      | [] => [[c]]

/-- Numeric value of a digit string (most significant first). -/
def digitsToNat (ds : List Char) : ℕ :=
  ds.foldl (fun a c => a * 10 + (c.toNat - '0'.toNat)) 0

/-- JS `parseFloat` on a capture of shape `\d+\.?\d*`: the exact decimal
value, `intPart + fracPart / 10 ^ fracDigits` (written as a single
`mkRat` so that it evaluates by kernel reduction; the equality with the
sum-of-parts form is `parseDecimal_eq` below). -/
def parseDecimal (intDs fracDs : List Char) : ℚ :=
  mkRat (digitsToNat intDs * 10 ^ fracDs.length + digitsToNat fracDs)
    (10 ^ fracDs.length)

/-- One attempt of `/\[download\]\s+(\d+\.?\d*)%/` anchored at the head of
`s`, returning the parsed capture.  The greedy parse needs no backtracking:
whenever the maximal-munch reading of `\s+`, `\d+`, `\.?`, `\d*` fails to
reach `%`, every shorter reading ends on a whitespace, digit or dot
character, which is not `%` either, so the whole attempt at this position
fails exactly when the maximal one does. -/
def matchDownloadAt (s : List Char) : Option ℚ :=
  if ("[download]".toList).isPrefixOf s then
    let rest := s.drop 10
    let ws := rest.takeWhile jsWhitespace
    if ws.isEmpty then none
    else
      let r1 := rest.drop ws.length
      let d1 := r1.takeWhile Char.isDigit
      if d1.isEmpty then none
      else
        match r1.drop d1.length with
        | '.' :: r3 =>
          let d2 := r3.takeWhile Char.isDigit
          match r3.drop d2.length with
          | '%' :: _ => some (parseDecimal d1 d2)
          | _ => none
        | '%' :: _ => some (parseDecimal d1 [])
        | _ => none
  else none

/-- `line.match(/\[download\]\s+(\d+\.?\d*)%/)`: first matching position,
scanning left to right. -/
def matchDownload : List Char → Option ℚ
  | [] => none
  | s :: t =>
    match matchDownloadAt (s :: t) with
    | some q => some q
    | none => matchDownload t

/-- One attempt of `/of\s+~?\s*(\S+)/` anchored at the head of `s`.
After the maximal `\s+` run the engine first tries to consume `~`; if no
`\S+` token follows (even after further whitespace) it backtracks and lets
the tilde itself start the captured token. -/
def matchSizeAt (s : List Char) : Option (List Char) :=
  match s with
  | 'o' :: 'f' :: r =>
    let ws := r.takeWhile jsWhitespace
    if ws.isEmpty then none
    else
      let r1 := r.drop ws.length
      let tryTilde :=
        match r1 with
        | '~' :: r2 =>
          let ws2 := r2.takeWhile jsWhitespace
          let tok := (r2.drop ws2.length).takeWhile (fun c => !jsWhitespace c)
          if tok.isEmpty then none else some tok
        | _ => none
      match tryTilde with
      | some tok => some tok
      | none =>
        let tok := r1.takeWhile (fun c => !jsWhitespace c)
        if tok.isEmpty then none else some tok
  | _ => none

/-- `line.match(/of\s+~?\s*(\S+)/)`, first match wins. -/
def matchSize : List Char → Option (List Char)
  | [] => none
  | s :: t =>
    match matchSizeAt (s :: t) with
    | some tok => some tok
    | none => matchSize t

/-- Helper for `/at\s+(\S+\/s)/`: within the maximal non-whitespace run
`run`, the greedy `\S+` backtracks to the rightmost `j ≥ 1` with
`run[j] = '/'` and `run[j+1] = 's'`; the capture is `run.take (j+2)`. -/
def findSlashS (run : List Char) : Option (List Char) :=
  (List.range run.length).reverse.findSome? fun j =>
    if 1 ≤ j && run.getD j ' ' = '/' && run.getD (j + 1) ' ' = 's' then
      some (run.take (j + 2))
    else none

/-- One attempt of `/at\s+(\S+\/s)/` anchored at the head of `s`. -/
def matchSpeedAt (s : List Char) : Option (List Char) :=
  match s with
  | 'a' :: 't' :: r =>
    let ws := r.takeWhile jsWhitespace
    if ws.isEmpty then none
    else
      let run := (r.drop ws.length).takeWhile (fun c => !jsWhitespace c)
      findSlashS run
  | _ => none

/-- `line.match(/at\s+(\S+\/s)/)`, first match wins. -/
def matchSpeed : List Char → Option (List Char)
  | [] => none
  | s :: t =>
    match matchSpeedAt (s :: t) with
    | some tok => some tok
    | none => matchSpeed t

/-- One attempt of `/ETA\s+(\S+)/` anchored at the head of `s`. -/
def matchEtaAt (s : List Char) : Option (List Char) :=
  match s with
  | 'E' :: 'T' :: 'A' :: r =>
    let ws := r.takeWhile jsWhitespace
    if ws.isEmpty then none
    else
      let tok := (r.drop ws.length).takeWhile (fun c => !jsWhitespace c)
      if tok.isEmpty then none else some tok
  | _ => none

/-- `line.match(/ETA\s+(\S+)/)`, first match wins. -/
def matchEta : List Char → Option (List Char)
  | [] => none
  | s :: t =>
    match matchEtaAt (s :: t) with
    | some tok => some tok
    | none => matchEta t

/-- The closure state captured by the stdout handler of `downloadVideo`:
`lastProgress` (initially `-1`), `isDownloading`, `isMerging`
(src/index.js lines 197-199). -/
structure CState where
  lastProgress : ℚ
  isDownloading : Bool
  isMerging : Bool
  deriving DecidableEq

/-- State at the start of a `downloadVideo` run:
`lastProgress = -1`, both flags false. -/
def initState : CState := ⟨-1, false, false⟩

/-- One classified console event produced by the stdout handler.  The
`downloading` payload records the parsed percent and the raw captures of
the speed, ETA and size regexes on the same line. -/
inductive Event where
  | downloading (percent : ℚ) (speed eta size : Option (List Char))
  | initialized
  | completed
  | merging
  | cleanup
  | embedding
  deriving DecidableEq

/-- The download-progress branch of the line classifier (src/index.js
lines 325-352): on a percentage match, `isDownloading` is set before the
emit test, and `lastProgress` is updated only when an event is printed. -/
def lineProgress (st : CState) (line : List Char) : CState × List Event :=
  match matchDownload line with
  | some progress =>
    let st1 : CState := { st with isDownloading := true }
    if ⌊progress⌋ ≠ ⌊st1.lastProgress⌋ ∨ progress = 100 then
      ({ st1 with lastProgress := progress },
        [Event.downloading progress (matchSpeed line) (matchEta line)
          (matchSize line)])
    else (st1, [])
  | none => (st, [])

/-- Branches 2-6 of the line classifier (src/index.js lines 354-387):
destination message, completed message, merger detection, cleanup message,
metadata-embedding message — sequential, independent `if` statements that
append their console output after any progress event of the same line. -/
def lineRest (line : List Char) (st1 : CState) (evts : List Event) :
    CState × List Event :=
  -- Destination message branch
  let evts :=
    if containsSub line ("[download] Destination:".toList) && !st1.isDownloading
    then evts ++ [Event.initialized] else evts
  -- Download completed branch
  let evts :=
    if (containsSub line ("[download] 100%".toList) ||
        containsSub line ("has already been downloaded".toList)) &&
        !st1.isMerging
    then evts ++ [Event.completed] else evts
  -- Merging / post-processing branch
  let step4 : CState × List Event :=
    if containsSub line ("[Merger]".toList) || containsSub line ("[ffmpeg]".toList)
    then
      if st1.isMerging then (st1, evts)
      else ({ st1 with isMerging := true }, evts ++ [Event.merging])
    else (st1, evts)
  let st2 := step4.1
  let evts := step4.2
  -- Cleanup branch
  let evts :=
    if containsSub line ("Deleting original file".toList)
    then evts ++ [Event.cleanup] else evts
  -- Embedding metadata branch
  let evts :=
    if containsSub line ("[EmbedThumbnail]".toList) ||
       containsSub line ("[Metadata]".toList)
    then evts ++ [Event.embedding] else evts
  (st2, evts)

/-- Classification of one complete line (the body of the `for` loop at
src/index.js lines 321-388): the `trim` guard, then the progress branch,
then the remaining branches threaded over its result. -/
def processLine (st : CState) (line : List Char) : CState × List Event :=
  -- if (!line.trim()) continue;
  if line.all jsWhitespace then (st, [])
  else
    let step1 := lineProgress st line
    lineRest line step1.1 step1.2

/-- Classify a list of complete lines in order, threading the state. -/
def processLines (st : CState) : List (List Char) → CState × List Event
  | [] => (st, [])
  | l :: rest =>
    let p := processLine st l
    let q := processLines p.1 rest
    (q.1, p.2 ++ q.2)

/-- The stdout `data` callback for one chunk: split on `'\n'` and classify
every piece immediately (src/index.js lines 317-321).  No partial-line
buffering happens. -/
def processChunk (st : CState) (chunk : List Char) : CState × List Event :=
  processLines st (splitLines chunk)

/-- Feed a sequence of raw chunks through the handler. -/
def processChunks (st : CState) : List (List Char) → CState × List Event
  | [] => (st, [])
  | c :: rest =>
    let p := processChunk st c
    let q := processChunks p.1 rest
    (q.1, p.2 ++ q.2)

/-- Percents of the Downloading-phase events of an event list, in order. -/
def downloadPercents (evts : List Event) : List ℚ :=
  evts.filterMap fun e =>
    match e with
    | Event.downloading p _ _ _ => some p
    | _ => none

/-! ### Formatter utilities (src/index.js lines 46-72) -/

/-- The unit table of `formatBytes`. -/
def sizesList : List String := ["Bytes", "KB", "MB", "GB", "TB"]

/-- Fueled base-`b` logarithm, kernel-reducible; agrees with `Nat.log`
whenever `n ≤ fuel` (`natLogF_eq_log`). -/
def natLogF : ℕ → ℕ → ℕ → ℕ
  | 0, _, _ => 0
  | fuel + 1, b, n => if 1 < b ∧ b ≤ n then natLogF fuel b (n / b) + 1 else 0


/-- The unit index `Math.floor(Math.log(bytes) / Math.log(1024))`.
In IEEE-754 double arithmetic the quotient of the two logarithms is exactly
`k` at `bytes = 1024 ^ k` for `k ≤ 5`, and the floor agrees with the exact
`Nat.log 1024 bytes` everywhere below `1024 ^ 5` except a three-integer
window: rounding makes the quotient reach `5.0` already at
`1024 ^ 5 - 3`.  The same one-ulp effect can recur just below higher powers,
where it only moves the index between values `≥ 5`; every such index selects
the out-of-range unit, so no statement below depends on it. -/
def jsLogIndex (bytes : ℕ) : ℕ :=
  if 1024 ^ 5 - 3 ≤ bytes then max 5 (natLogF bytes 1024 bytes)
  else natLogF bytes 1024 bytes

/-- The hundredths integer produced by `(bytes / 1024 ** i).toFixed(2)`:
round-half-up of `100 * bytes / 1024 ^ i`.  The quotient `bytes / 1024 ^ i`
is a dyadic rational exactly representable as a double, and `toFixed(2)`
picks the nearest hundredth, ties upward:
`⌊100 * x + 1/2⌋ = (200 * bytes + 1024 ^ i) / (2 * 1024 ^ i)` in natural
division. -/
def mantissaHundredths (bytes i : ℕ) : ℕ :=
  (200 * bytes + 1024 ^ i) / (2 * 1024 ^ i)

/-- Character of a decimal digit. -/
def natDigitChar (n : ℕ) : Char := Char.ofNat ('0'.toNat + n)

/-- Digit list of a natural number, fueled structural recursion. -/
def natToDigitsAux : ℕ → ℕ → List Char → List Char
  | 0, _, acc => acc
  | fuel + 1, n, acc =>
    if n < 10 then natDigitChar n :: acc
    else natToDigitsAux fuel (n / 10) (natDigitChar (n % 10) :: acc)

/-- Decimal rendering of a natural number (JS integer-to-string). -/
def natToString (n : ℕ) : String := String.mk (natToDigitsAux (n + 1) n [])

/-- Decimal rendering of `m / 100` after `parseFloat` (numeric coercion)
strips trailing zeros: `parseFloat("1.50") + " KB"` prints `1.5 KB`. -/
def stripTrailingZeros (m : ℕ) : String :=
  let ip := m / 100
  let fp := m % 100
  if fp = 0 then natToString ip
  else if fp % 10 = 0 then natToString ip ++ "." ++ natToString (fp / 10)
  else if fp < 10 then natToString ip ++ ".0" ++ natToString fp
  else natToString ip ++ "." ++ natToString fp

/-- `formatBytes` (src/index.js lines 46-53) at the default
`decimals = 2`.  `sizes[i]` for `i ≥ 5` is `undefined`, which string
concatenation renders as `"undefined"`; `List.getD` with that default
models the out-of-bounds indexing. -/
def formatBytes (bytes : ℕ) : String :=
  if bytes = 0 then "0 Bytes"
  else
    stripTrailingZeros (mantissaHundredths bytes (jsLogIndex bytes)) ++ " " ++
      sizesList.getD (jsLogIndex bytes) "undefined"

/-- `createProgressBar` (src/index.js lines 68-72).  JS `Math.round x` is
`⌊x + 1/2⌋`, which is Mathlib `round`.  `"█".repeat(filled)` and
`"░".repeat(empty)` throw a RangeError on a negative count; a thrown
exception is modelled as `none`. -/
def createProgressBar (percentage : ℚ) (width : ℤ) : Option String :=
  let filled := round (percentage / 100 * (width : ℚ))
  let empty := width - filled
  if filled < 0 then none
  else if empty < 0 then none
  else
    some ("[" ++ String.mk (List.replicate filled.toNat '█') ++
      String.mk (List.replicate empty.toNat '░') ++ "]")

/-! ### Quality resolution (src/index.js lines 11-42, 539-553) -/

/-- Iteration order of `Object.keys(CONFIG.qualities)`: JS integer-like
keys come first in ascending numeric order (here they are already written
in that order), then the string keys in insertion order. -/
def qualityKeys : List (List Char) :=
  ["360", "480", "720", "1080", "1440", "2160", "audio", "best"].map
    String.toList

/-- All-lowercase property names that `CONFIG.qualities[q]` finds on the
prototype chain: the truthiness test `!CONFIG.qualities[quality]` is a JS
property lookup, and `Object.prototype` contributes `constructor` and
`__proto__` (the other inherited names contain uppercase letters, which
the preceding `toLowerCase` makes unreachable). -/
def inheritedLowercaseKeys : List (List Char) :=
  ["constructor", "__proto__"].map String.toList

/-- Digit value for JS `parseInt` with radix 16. -/
def hexDigitVal (c : Char) : Option ℕ :=
  if '0' ≤ c ∧ c ≤ '9' then some (c.toNat - '0'.toNat)
  else if 'a' ≤ c ∧ c ≤ 'f' then some (c.toNat - 'a'.toNat + 10)
  else if 'A' ≤ c ∧ c ≤ 'F' then some (c.toNat - 'A'.toNat + 10)
  else none

/-- Value of a hex digit string. -/
def hexToNat (ds : List Char) : ℕ :=
  ds.foldl (fun a c => a * 16 + ((hexDigitVal c).getD 0)) 0

/-- Magnitude part of JS `parseInt`: a `0x`/`0X` prefix switches to
radix 16, otherwise the longest leading run of decimal digits; no digit
means `NaN` (`none`). -/
def parseIntBody (r : List Char) : Option ℕ :=
  match r with
  | '0' :: 'x' :: rest =>
    let ds := rest.takeWhile (fun c => (hexDigitVal c).isSome)
    if ds.isEmpty then none else some (hexToNat ds)
  | '0' :: 'X' :: rest =>
    let ds := rest.takeWhile (fun c => (hexDigitVal c).isSome)
    if ds.isEmpty then none else some (hexToNat ds)
  | _ =>
    let ds := r.takeWhile Char.isDigit
    if ds.isEmpty then none else some (digitsToNat ds)

/-- JS `parseInt(s)` with no radix argument: skip leading whitespace, an
optional single sign, then `parseIntBody`; `none` models `NaN`. -/
def parseIntJS (s : List Char) : Option ℤ :=
  match s.dropWhile jsWhitespace with
  | '+' :: r => (parseIntBody r).map fun n => (n : ℤ)
  | '-' :: r => (parseIntBody r).map fun n => -(n : ℤ)
  | r => (parseIntBody r).map fun n => (n : ℤ)

/-- Quality selection in `main` (src/index.js lines 539-553) for a prompt
answer `input` (already trimmed by `promptUser`); returns the chosen
quality key.  `toLowerCase` is modelled per character (the inputs at stake
are ASCII). -/
def resolveQuality (input : List Char) : List Char :=
  -- let quality = qualityInput.toLowerCase() || "best";
  let lower := input.map Char.toLower
  let q0 := if lower.isEmpty then "best".toList else lower
  -- const qualityIndex = parseInt(qualityInput) - 1;
  -- if (qualityIndex >= 0 && qualityIndex < qualityKeys.length) ...
  let q1 :=
    match parseIntJS input with
    | some n =>
      if 0 ≤ n - 1 ∧ n - 1 < 8 then qualityKeys.getD (n - 1).toNat ("best".toList)
      else q0
    | none => q0
  -- if (!CONFIG.qualities[quality]) quality = "best";
  if q1 ∈ qualityKeys ∨ q1 ∈ inheritedLowercaseKeys then q1 else "best".toList

/-! ### Completion outcome (src/index.js lines 309-312, 412-509) -/

/-- Failure cases of `downloadVideo`: the executable existence check, the
`error` event of the spawned process, and an exit code outside `{0, 1}`. -/
inductive ExecError where
  | notFound
  | spawnFailed
  | exitCode (code : ℤ)
  deriving DecidableEq

/-- Resolution of the `downloadVideo` promise. -/
inductive Outcome where
  | success (degraded : Bool)
  | failure (err : ExecError)
  deriving DecidableEq

/-- Resolution logic of `downloadVideo`: the `fs.existsSync` guard
(lines 309-312), the spawn `error` handler (lines 506-509) and the `close`
handler (lines 412-504).  `degraded` records the `code === 1 && isMerging`
branch that prints the completed-with-warnings advisory. -/
def downloadOutcome (found spawnOk : Bool) (code : ℤ) (isMerging : Bool) :
    Outcome :=
  if !found then Outcome.failure ExecError.notFound
  else if !spawnOk then Outcome.failure ExecError.spawnFailed
  else if code = 0 ∨ code = 1 then Outcome.success (decide (code = 1) && isMerging)
  else Outcome.failure (ExecError.exitCode code)

/-- Position of an event's phase in the forward order stated by the spec
(Downloading → Merging → EmbeddingMetadata → Completed); `none` for the
purely informational events that carry no phase. -/
def phaseRank : Event → Option ℕ
  | Event.downloading _ _ _ _ => some 0
  | Event.merging => some 1
  | Event.embedding => some 2
  | Event.completed => some 3
  | _ => none

/-- Potential of the `isMerging` flag: 1 while the run may still print its
single merging event, 0 afterwards.  The flag is set but never reset. -/
def mergePot (st : CState) : ℕ := if st.isMerging then 0 else 1

/-! ### Structural lemmas about the chunk handler -/

lemma natLogF_eq_log : ∀ (fuel b n : ℕ), n ≤ fuel → natLogF fuel b n = Nat.log b n := by
  intro fuel
  induction fuel with
  | zero =>
    intro b n hn
    interval_cases n
    simp [natLogF]
  | succ fuel ih =>
    intro b n hn
    by_cases h : 1 < b ∧ b ≤ n
    · have hn0 : 0 < n := lt_of_lt_of_le (Nat.lt_of_lt_of_le Nat.zero_lt_one h.1.le) h.2
      have hdiv : n / b ≤ fuel := by
        have := Nat.div_lt_self hn0 h.1
        omega
      rw [natLogF, if_pos h, ih b (n / b) hdiv,
        ← Nat.log_of_one_lt_of_le h.1 h.2]
    · rw [natLogF, if_neg h]
      rcases Nat.lt_or_ge n b with hlt | hge
      · exact (Nat.log_of_lt hlt).symm
      · have hb : b ≤ 1 := by omega
        exact (Nat.log_of_left_le_one hb n).symm


lemma splitLines_ne_nil : ∀ cs : List Char, splitLines cs ≠ [] := by
  intro cs
  cases cs with
  | nil => simp [splitLines]
  | cons c rest =>
    simp only [splitLines]
    split
    · simp
    · split <;> simp

lemma splitLines_append (xs ys : List Char) :
    splitLines (xs ++ '\n' :: ys) = splitLines xs ++ splitLines ys := by
  induction xs with
  | nil => simp [splitLines]
  | cons c rest ih =>
    by_cases hc : c = '\n'
    · subst hc
      have l1 : splitLines ('\n' :: (rest ++ '\n' :: ys)) =
          [] :: splitLines (rest ++ '\n' :: ys) := by simp [splitLines]
      have l2 : splitLines ('\n' :: rest) = [] :: splitLines rest := by
        simp [splitLines]
      simp [l1, l2, ih]
    · simp only [List.cons_append, splitLines, if_neg hc]
      cases h : splitLines rest with
      | nil => exact absurd h (splitLines_ne_nil rest)
      | cons l ls =>
        simp only [List.append_eq]
        rw [ih, h]
        simp

lemma processLine_blank {line : List Char} (h : line.all jsWhitespace = true)
    (st : CState) : processLine st line = (st, []) := by
  simp [processLine, h]

lemma processLine_nil (st : CState) : processLine st [] = (st, []) := by
  simp [processLine]

lemma processLines_append (st : CState) (l1 l2 : List (List Char)) :
    processLines st (l1 ++ l2) =
      ((processLines (processLines st l1).1 l2).1,
        (processLines st l1).2 ++ (processLines (processLines st l1).1 l2).2) := by
  induction l1 generalizing st with
  | nil => simp [processLines]
  | cons l rest ih =>
    simp only [List.cons_append, processLines, List.append_eq]
    rw [ih]
    simp [List.append_assoc]

lemma processLines_nil_cons (st : CState) (L : List (List Char)) :
    processLines st ([] :: L) = processLines st L := by
  simp [processLines, processLine_nil]

lemma matchDownload_not_blank :
    ∀ (line : List Char) (p : ℚ), matchDownload line = some p →
      line.all jsWhitespace = false := by
  intro line
  induction line with
  | nil => intro p h; simp [matchDownload] at h
  | cons c t ih =>
    intro p h
    rw [matchDownload] at h
    cases hat : matchDownloadAt (c :: t) with
    | some q =>
      have hc : c = '[' := by
        unfold matchDownloadAt at hat
        split at hat
        · rename_i hpre
          have h1 : ("[download]".toList).isPrefixOf (c :: t) = true := hpre
          have h2 : ('[' == c) = true := by
            rw [show "[download]".toList = '[' :: "download]".toList from rfl,
              List.isPrefixOf] at h1
            simp only [Bool.and_eq_true] at h1
            exact h1.1
          exact (eq_of_beq h2).symm
        · exact absurd hat (by simp)
      subst hc
      simp [List.all_cons, jsWhitespace]
    | none =>
      rw [hat] at h
      simp [List.all_cons, ih p h]

@[simp] lemma downloadPercents_nil : downloadPercents [] = [] := rfl

@[simp] lemma downloadPercents_append (a b : List Event) :
    downloadPercents (a ++ b) = downloadPercents a ++ downloadPercents b :=
  List.filterMap_append a b _

@[simp] lemma downloadPercents_cons_downloading (p : ℚ)
    (sp et sz : Option (List Char)) (rest : List Event) :
    downloadPercents (Event.downloading p sp et sz :: rest) =
      p :: downloadPercents rest := rfl

@[simp] lemma downloadPercents_cons_initialized (rest : List Event) :
    downloadPercents (Event.initialized :: rest) = downloadPercents rest := rfl

@[simp] lemma downloadPercents_cons_completed (rest : List Event) :
    downloadPercents (Event.completed :: rest) = downloadPercents rest := rfl

@[simp] lemma downloadPercents_cons_merging (rest : List Event) :
    downloadPercents (Event.merging :: rest) = downloadPercents rest := rfl

@[simp] lemma downloadPercents_cons_cleanup (rest : List Event) :
    downloadPercents (Event.cleanup :: rest) = downloadPercents rest := rfl

@[simp] lemma downloadPercents_cons_embedding (rest : List Event) :
    downloadPercents (Event.embedding :: rest) = downloadPercents rest := rfl

lemma lineRest_fst_lastProgress (line : List Char) (st1 : CState)
    (evts : List Event) :
    (lineRest line st1 evts).1.lastProgress = st1.lastProgress := by
  simp only [lineRest]
  split_ifs <;> rfl

lemma lineRest_fst_isDownloading (line : List Char) (st1 : CState)
    (evts : List Event) :
    (lineRest line st1 evts).1.isDownloading = st1.isDownloading := by
  simp only [lineRest]
  split_ifs <;> rfl

lemma lineRest_dp (line : List Char) (st1 : CState) (evts : List Event) :
    downloadPercents (lineRest line st1 evts).2 = downloadPercents evts := by
  simp only [lineRest]
  split_ifs <;> simp

/-- Downloading events emitted for one line that matches the percentage
pattern: exactly the de-duplication test of src/index.js lines 335-351,
together with the update of `lastProgress`. -/
lemma processLine_dp (st : CState) (line : List Char) (p : ℚ)
    (h : matchDownload line = some p) :
    downloadPercents (processLine st line).2 =
      (if ⌊p⌋ ≠ ⌊st.lastProgress⌋ ∨ p = 100 then [p] else []) ∧
    (processLine st line).1.lastProgress =
      (if ⌊p⌋ ≠ ⌊st.lastProgress⌋ ∨ p = 100 then p else st.lastProgress) := by
  have hb : line.all jsWhitespace = false := matchDownload_not_blank _ p h
  have hlp : ({ st with isDownloading := true } : CState).lastProgress =
      st.lastProgress := rfl
  simp only [processLine, hb, Bool.false_eq_true, if_false, lineProgress, h, hlp]
  constructor
  · rw [lineRest_dp]
    split_ifs <;> simp
  · rw [lineRest_fst_lastProgress]
    split_ifs <;> rfl

/-- Feeding lines whose percentage captures are `ps`, the emitted
Downloading percents form a subsequence of `ps`, and a percent equal to
100 is emitted once per input line carrying it (the `progress === 100`
disjunct always passes the de-duplication test). -/
lemma processLines_dp_sublist (ls : List (List Char)) (ps : List ℚ)
    (hf : List.Forall₂ (fun l p => matchDownload l = some p) ls ps) :
    ∀ st : CState,
      (downloadPercents (processLines st ls).2).Sublist ps ∧
      (downloadPercents (processLines st ls).2).count 100 = ps.count 100 := by
  induction hf with
  | nil => intro st; simp [processLines]
  | @cons l p ls' ps' hlp htail ih =>
    intro st
    have hd := processLine_dp st l p hlp
    rcases ih (processLine st l).1 with ⟨ihs, ihc⟩
    simp only [processLines, downloadPercents_append]
    rw [hd.1]
    constructor
    · split_ifs
      · simpa using ihs.cons₂ p
      · exact ihs.cons p
    · by_cases hp : p = 100
      · subst hp
        rw [if_pos (Or.inr rfl)]
        simp [List.count_cons, ihc]
      · have : (if ⌊p⌋ ≠ ⌊st.lastProgress⌋ ∨ p = 100 then [p] else []).count (100 : ℚ) = 0 := by
          split_ifs <;> simp [List.count_cons, List.count_singleton, hp]
        rw [List.count_append, this, ihc, List.count_cons, if_neg (by simpa using hp)]
        omega

lemma lineRest_merging_count (line : List Char) (st1 : CState)
    (evts : List Event) :
    (lineRest line st1 evts).2.count Event.merging +
        mergePot (lineRest line st1 evts).1 ≤
      evts.count Event.merging + mergePot st1 := by
  simp only [lineRest, mergePot]
  split_ifs <;> simp_all [List.count_append, List.count_cons]

lemma lineProgress_merging (st : CState) (line : List Char) :
    (lineProgress st line).2.count Event.merging = 0 ∧
      (lineProgress st line).1.isMerging = st.isMerging := by
  cases h : matchDownload line with
  | none => simp [lineProgress, h]
  | some p =>
    simp only [lineProgress, h]
    split_ifs <;> simp [List.count_cons]

lemma processLine_merging (st : CState) (line : List Char) :
    (processLine st line).2.count Event.merging +
        mergePot (processLine st line).1 ≤ mergePot st := by
  by_cases hb : line.all jsWhitespace = true
  · simp [processLine_blank hb]
  · have hb' : line.all jsWhitespace = false := by
      simpa using hb
    simp only [processLine, hb', Bool.false_eq_true, if_false]
    have h1 := lineRest_merging_count line (lineProgress st line).1
      (lineProgress st line).2
    have h2 := lineProgress_merging st line
    have h3 : mergePot (lineProgress st line).1 = mergePot st := by
      simp [mergePot, h2.2]
    omega

lemma processLines_merging (ls : List (List Char)) :
    ∀ st : CState,
      (processLines st ls).2.count Event.merging +
        mergePot (processLines st ls).1 ≤ mergePot st := by
  induction ls with
  | nil => intro st; simp [processLines]
  | cons l rest ih =>
    intro st
    have h1 := processLine_merging st l
    have h2 := ih (processLine st l).1
    simp only [processLines, List.count_append]
    omega

lemma processChunks_merging (cs : List (List Char)) :
    ∀ st : CState,
      (processChunks st cs).2.count Event.merging +
        mergePot (processChunks st cs).1 ≤ mergePot st := by
  induction cs with
  | nil => intro st; simp [processChunks]
  | cons c rest ih =>
    intro st
    have h1 := processLines_merging (splitLines c) st
    have h2 := ih (processChunk st c).1
    simp only [processChunks, List.count_append, processChunk] at h1 h2 ⊢
    omega

/-- The natural division in `mantissaHundredths` is exactly the
round-half-up of `100 * bytes / 1024 ^ i` performed by `toFixed(2)`. -/
lemma mantissaHundredths_round (n i : ℕ) :
    (mantissaHundredths n i : ℤ) = round ((n : ℚ) / 1024 ^ i * 100) := by
  rw [round_eq, mantissaHundredths]
  have harg : (n : ℚ) / 1024 ^ i * 100 + 1 / 2 =
      (((200 * n + 1024 ^ i : ℕ) : ℤ) : ℚ) / ((2 * 1024 ^ i : ℕ) : ℚ) := by
    have h : ((1024 : ℚ) ^ i) ≠ 0 := by positivity
    push_cast
    field_simp
    ring
  rw [harg, Rat.floor_intCast_div_natCast, Int.natCast_div]

/-- A five-element `getD` at an in-range index is a member of the list. -/
lemma sizesList_getD_mem {i : ℕ} (h : i < 5) :
    sizesList.getD i "undefined" ∈ sizesList := by
  have hlen : i < sizesList.length := by simpa [sizesList] using h
  rw [List.getD_eq_getElem?_getD, List.getElem?_eq_getElem hlen]
  exact List.getElem_mem hlen

/-! ### Claim theorems -/

/-- C1, counterexample: the handler buffers nothing, so splitting the line
`[download]  45.2%` after `45.` loses the event that the unsplit feed
produces — the classified sequences differ. -/
theorem claim1_counterexample :
    (processChunks initState [("[download]  45.".toList), ("2%\n".toList)]).2 ≠
      (processChunks initState [("[download]  45.2%\n".toList)]).2 := by
  decide

/-- C1, amended: re-chunking is invariant only at line boundaries — a cut
placed immediately after (or immediately before) a newline character
yields the same classified event sequence and the same final state as the
unsplit feed, for every starting state. -/
theorem claim1_amended (st : CState) (xs ys : List Char) :
    processChunks st [xs ++ ['\n'], ys] = processChunks st [xs ++ '\n' :: ys] ∧
    processChunks st [xs, '\n' :: ys] = processChunks st [xs ++ '\n' :: ys] := by
  have h2 : ∀ s : CState, processLines s [[]] = (s, []) := by
    intro s
    simp [processLines, processLine_nil]
  constructor
  · have h1 : splitLines (xs ++ ['\n']) = splitLines xs ++ [[]] :=
      splitLines_append xs []
    simp only [processChunks, processChunk, h1, splitLines_append,
      processLines_append]
    simp [h2]
  · have h3 : splitLines ('\n' :: ys) = [] :: splitLines ys := by
      simp [splitLines]
    simp only [processChunks, processChunk, h3, splitLines_append,
      processLines_append, processLines_nil_cons]
    simp

/-- C2, counterexample: fed the percent lines 50, 30, 100, 100 (all
complete lines in one chunk), the handler emits exactly those four
Downloading events: the integer floors are not non-decreasing, and two
events carry percent exactly 100 although 100% lines are present. -/
theorem claim2_counterexample :
    downloadPercents (processChunks initState
        [("[download] 50%\n[download] 30%\n[download] 100%\n[download] 100%\n".toList)]).2 =
      [50, 30, 100, 100] ∧
    ¬ List.Pairwise (· ≤ ·)
        ((downloadPercents (processChunks initState
          [("[download] 50%\n[download] 30%\n[download] 100%\n[download] 100%\n".toList)]).2).map
            fun p => (⌊p⌋ : ℤ)) ∧
    (downloadPercents (processChunks initState
        [("[download] 50%\n[download] 30%\n[download] 100%\n[download] 100%\n".toList)]).2).count
        100 ≠ 1 := by
  refine ⟨by decide, by decide, by decide⟩

/-- C2, amended: when complete percentage lines with captures `ps` are fed
in order, the emitted Downloading percents are a subsequence of `ps` — so
if the input percents are non-decreasing, the emitted integer floors are
non-decreasing — and the number of emitted events with percent exactly 100
equals the number of 100% input lines (hence at least one when such a line
is present, but one per occurrence rather than exactly one). -/
theorem claim2_amended (ls : List (List Char)) (ps : List ℚ)
    (hf : List.Forall₂ (fun l p => matchDownload l = some p) ls ps) :
    (downloadPercents (processLines initState ls).2).Sublist ps ∧
    (List.Pairwise (· ≤ ·) ps →
      List.Pairwise (· ≤ ·)
        ((downloadPercents (processLines initState ls).2).map fun p => (⌊p⌋ : ℤ))) ∧
    (downloadPercents (processLines initState ls).2).count 100 = ps.count 100 := by
  obtain ⟨hs, hc⟩ := processLines_dp_sublist ls ps hf initState
  refine ⟨hs, fun hmono => ?_, hc⟩
  exact (hmono.sublist hs).map _ fun a b hab => Int.floor_le_floor hab

/-- C2, witness: two lines 50% and 100%, both emitted, floors sorted,
exactly one 100 among them. -/
theorem claim2_witness :
    (downloadPercents (processLines initState
        [("[download] 50%".toList), ("[download] 100%".toList)]).2).Sublist
      [(50 : ℚ), 100] ∧
    List.Pairwise (· ≤ ·)
      ((downloadPercents (processLines initState
        [("[download] 50%".toList), ("[download] 100%".toList)]).2).map
          fun p => (⌊p⌋ : ℤ)) ∧
    (downloadPercents (processLines initState
        [("[download] 50%".toList), ("[download] 100%".toList)]).2).count 100 =
      [(50 : ℚ), 100].count 100 := by
  have h := claim2_amended [("[download] 50%".toList), ("[download] 100%".toList)]
    [(50 : ℚ), 100]
    (List.Forall₂.cons (by decide) (List.Forall₂.cons (by decide) List.Forall₂.nil))
  exact ⟨h.1, h.2.1 (by decide), h.2.2⟩

/-- C3: a complete line matching the download-percentage pattern emits a
Downloading event exactly when the integer floor of its percent differs
from the floor of the last emitted percent (`lastProgress`, `-1` before
the first emission), or the percent is exactly 100; the emitted event
carries that percent, and otherwise the line emits no Downloading
event. -/
theorem claim3_dedup (st : CState) (line : List Char) (p : ℚ)
    (h : matchDownload line = some p) :
    downloadPercents (processLine st line).2 =
      (if ⌊p⌋ ≠ ⌊st.lastProgress⌋ ∨ p = 100 then [p] else []) :=
  (processLine_dp st line p h).1

/-- C3, witness: from the initial state, the 45.2% line emits (floor 45
differs from floor -1); the same line re-fed at `lastProgress = 45.2` does
not emit. -/
theorem claim3_witness :
    downloadPercents (processLine initState
        ("[download]  45.2% of ~10.00MiB at 1.20MiB/s ETA 00:05".toList)).2 =
      [mkRat 452 10] ∧
    downloadPercents (processLine ⟨mkRat 452 10, true, false⟩
        ("[download]  45.6% of ~10.00MiB at 1.20MiB/s ETA 00:03".toList)).2 = [] := by
  constructor
  · rw [claim3_dedup initState _ (mkRat 452 10) (by decide)]
    decide
  · rw [claim3_dedup ⟨mkRat 452 10, true, false⟩ _ (mkRat 456 10) (by decide)]
    decide

/-- C4, counterexample: the single line `[download] 100%` produces two
distinct events — a Downloading event (the `=== 100` disjunct always
emits) and the completed notification — because the classification
branches are independent `if` statements, not first-match-wins. -/
theorem claim4_counterexample :
    (processLine initState ("[download] 100%".toList)).2 =
      [Event.downloading 100 none none none, Event.completed] ∧
    2 ≤ (processLine initState ("[download] 100%".toList)).2.length := by
  refine ⟨by decide, by decide⟩

/-- C4, amended: the rules are applied as independent tests and every
matching rule fires, so one line can produce several events; in
particular, from any state not in the Merging phase, the line
`[download] 100%` produces both a Downloading event and the completed
notification. -/
theorem claim4_amended (st : CState) (hm : st.isMerging = false) :
    (processLine st ("[download] 100%".toList)).2 =
      [Event.downloading 100 none none none, Event.completed] := by
  have hmd : matchDownload ("[download] 100%".toList) = some 100 := by decide
  have hb : (("[download] 100%".toList).all jsWhitespace) = false := by decide
  have hsp : matchSpeed ("[download] 100%".toList) = none := by decide
  have het : matchEta ("[download] 100%".toList) = none := by decide
  have hsz : matchSize ("[download] 100%".toList) = none := by decide
  simp only [processLine, hb, Bool.false_eq_true, if_false, lineProgress, hmd,
    hsp, het, hsz, or_true, if_true]
  rw [hm]
  decide

/-- C4, witness: the amended claim at the initial state. -/
theorem claim4_witness :
    (processLine initState ("[download] 100%".toList)).2 =
      [Event.downloading 100 none none none, Event.completed] :=
  claim4_amended initState rfl

/-- C5: exit code 0 resolves as plain success; exit code 1 resolves as
success, degraded exactly when a Merging phase was observed; any other
exit code fails with the code attached; a missing executable or a spawn
failure fails before any exit code is read. -/
theorem claim5_exit_codes (code : ℤ) (merging : Bool) :
    downloadOutcome true true 0 merging = Outcome.success false ∧
    downloadOutcome true true 1 true = Outcome.success true ∧
    downloadOutcome true true 1 false = Outcome.success false ∧
    (code ≠ 0 → code ≠ 1 →
      downloadOutcome true true code merging =
        Outcome.failure (ExecError.exitCode code)) ∧
    downloadOutcome false true code merging = Outcome.failure ExecError.notFound ∧
    downloadOutcome true false code merging =
      Outcome.failure ExecError.spawnFailed := by
  refine ⟨by simp [downloadOutcome], by simp [downloadOutcome],
    by simp [downloadOutcome], fun h0 h1 => ?_,
    by simp [downloadOutcome], by simp [downloadOutcome]⟩
  simp [downloadOutcome, h0, h1]

/-- C5, witness: the exit-code cases at concrete values, including exit
code 2 rejected with the code. -/
theorem claim5_witness :
    downloadOutcome true true 2 false = Outcome.failure (ExecError.exitCode 2) ∧
    downloadOutcome true true 1 true = Outcome.success true := by
  have h := claim5_exit_codes 2 false
  exact ⟨h.2.2.2.1 (by decide) (by decide), h.2.1⟩

/-- C6, counterexample: a merger line followed by a percentage line emits
a Merging event and then a Downloading event — an earlier phase after a
later one, so the emitted phase sequence is not monotonic. -/
theorem claim6_counterexample :
    (processChunks initState
        [("[Merger] Merging formats\n[download]  55.2% of 10MiB\n".toList)]).2 =
      [Event.merging,
        Event.downloading (mkRat 552 10) none none (some ("10MiB".toList))] ∧
    ¬ List.Pairwise (· ≤ ·)
        ((processChunks initState
          [("[Merger] Merging formats\n[download]  55.2% of 10MiB\n".toList)]).2.filterMap
            phaseRank) := by
  refine ⟨by decide, by decide⟩

/-- C6, amended: the handler does not suppress Downloading (or other)
events after a later phase has been entered, so the phase sequence need
not be monotonic; what does hold is that the Merging event is emitted at
most once per run (the `isMerging` flag is set once and never reset). -/
theorem claim6_amended (chunks : List (List Char)) :
    ((processChunks initState chunks).2.count Event.merging) ≤ 1 := by
  have h := processChunks_merging chunks initState
  have hp : mergePot initState = 1 := rfl
  omega

/-- C7: the source does not clamp — percent above 100 makes the
`"░".repeat` count negative and percent below 0 makes the `"█".repeat`
count negative, so `createProgressBar` throws a RangeError (modelled as
`none`) instead of returning a clamped bar. -/
theorem claim7_no_clamp :
    createProgressBar 150 40 = none ∧ createProgressBar (-10) 40 = none ∧
    createProgressBar 50 40 =
      some ("[" ++ String.mk (List.replicate 20 '█') ++
        String.mk (List.replicate 20 '░') ++ "]") := by
  refine ⟨?_, ?_, ?_⟩
  · have h : round ((150 : ℚ) / 100 * (40 : ℚ)) = 60 := by norm_num [round_eq]
    simp [createProgressBar, h]
  · have h : round ((-10 : ℚ) / 100 * (40 : ℚ)) = -4 := by norm_num [round_eq]
    simp [createProgressBar, h]
  · have h : round ((50 : ℚ) / 100 * (40 : ℚ)) = 20 := by norm_num [round_eq]
    simp [createProgressBar, h]

/-- C8, counterexample: one step past TB, `sizes[5]` is `undefined` and
`formatBytes` renders `1 undefined`, whose unit is not one of the five
documented units — so the unit-selection sentence fails at `n = 1024^5`. -/
theorem claim8_counterexample :
    formatBytes (1024 ^ 5) = "1 undefined" ∧ "undefined" ∉ sizesList := by
  refine ⟨by decide, by decide⟩

/-- C8, amended: the stated behaviour holds for `1 ≤ n < 1024^5 - 3` (the
three integers below `1024^5` already overflow the table because the
floating-point log quotient rounds up to 5 there): the unit index `i` is
the unique one with `1024^i ≤ n < 1024^(i+1)`, i.e. the scaled value lies
in `[1, 1024)`; the mantissa is the round-half-up of `100 * n / 1024^i`
rendered with trailing zeros stripped; the unit comes from the table; and
the concrete examples of the claim hold, as does `formatBytes 0`. -/
theorem claim8_amended :
    formatBytes 0 = "0 Bytes" ∧
    formatBytes 1536 = "1.5 KB" ∧
    formatBytes 1073741824 = "1 GB" ∧
    (∀ n : ℕ, 1 ≤ n → n < 1024 ^ 5 - 3 →
      ∃ i : ℕ, i < 5 ∧
        1024 ^ i ≤ n ∧ n < 1024 ^ (i + 1) ∧
        (1 : ℚ) ≤ (n : ℚ) / 1024 ^ i ∧ (n : ℚ) / 1024 ^ i < 1024 ∧
        (mantissaHundredths n i : ℤ) = round ((n : ℚ) / 1024 ^ i * 100) ∧
        sizesList.getD i "undefined" ∈ sizesList ∧
        formatBytes n =
          stripTrailingZeros (mantissaHundredths n i) ++ " " ++
            sizesList.getD i "undefined") := by
  refine ⟨by decide, by decide, by decide, fun n h1 hlt => ?_⟩
  have hn0 : n ≠ 0 := by omega
  have hpow : (1024 : ℕ) ^ 5 = 1125899906842624 := by norm_num
  have hi5 : Nat.log 1024 n < 5 :=
    Nat.log_lt_of_lt_pow hn0 (by omega)
  have hlow : 1024 ^ Nat.log 1024 n ≤ n := Nat.pow_log_le_self 1024 hn0
  have hhigh : n < 1024 ^ (Nat.log 1024 n + 1) :=
    Nat.lt_pow_succ_log_self (by norm_num) n
  have hjs : jsLogIndex n = Nat.log 1024 n := by
    rw [jsLogIndex, if_neg (by omega), natLogF_eq_log n 1024 n le_rfl]
  refine ⟨Nat.log 1024 n, hi5, hlow, hhigh, ?_, ?_,
    mantissaHundredths_round n _, sizesList_getD_mem hi5, ?_⟩
  · rw [le_div_iff₀ (by positivity), one_mul]
    exact_mod_cast hlow
  · rw [div_lt_iff₀ (by positivity)]
    have hc : (n : ℚ) < (1024 : ℚ) ^ (Nat.log 1024 n + 1) := by exact_mod_cast hhigh
    rw [pow_succ] at hc
    linarith [hc]
  · rw [formatBytes, if_neg hn0, hjs]

/-- C8, witness: the amended statement instantiated at `n = 1536`. -/
theorem claim8_witness :
    ∃ i : ℕ, i < 5 ∧
      1024 ^ i ≤ 1536 ∧ 1536 < 1024 ^ (i + 1) ∧
      (1 : ℚ) ≤ (1536 : ℚ) / 1024 ^ i ∧ (1536 : ℚ) / 1024 ^ i < 1024 ∧
      (mantissaHundredths 1536 i : ℤ) = round ((1536 : ℚ) / 1024 ^ i * 100) ∧
      sizesList.getD i "undefined" ∈ sizesList ∧
      formatBytes 1536 =
        stripTrailingZeros (mantissaHundredths 1536 i) ++ " " ++
          sizesList.getD i "undefined" :=
  claim8_amended.2.2.2 1536 (by norm_num) (by norm_num)

/-- C9, counterexample: `parseInt` accepts the numeric prefix of `"3.5"`,
so the quality resolution returns the third catalog profile (`720`)
instead of the claimed fallback to `best`, although `"3.5"` is neither a
catalog key nor an in-range integer ordinal. -/
theorem claim9_counterexample :
    resolveQuality ("3.5".toList) = "720".toList ∧
    ("3.5".toList) ∉ qualityKeys ∧
    resolveQuality ("3.5".toList) ≠ "best".toList := by
  refine ⟨by decide, by decide, by decide⟩

/-- C9, amended: resolution is driven by `parseInt`'s leading-integer
parse — any input whose parse is an in-range ordinal selects by 1-based
position even with trailing garbage; otherwise a (lowercased) catalog key
selects that key; otherwise the result is `best`, except for the two
all-lowercase names inherited from `Object.prototype`
(`constructor`, `__proto__`), which escape the fallback test. -/
theorem claim9_amended :
    (∀ (s : List Char) (k : ℤ), parseIntJS s = some k → 1 ≤ k → k ≤ 8 →
      resolveQuality s = qualityKeys.getD (k - 1).toNat ("best".toList)) ∧
    (∀ s : List Char, (∀ k : ℤ, parseIntJS s = some k → k < 1 ∨ 8 < k) →
      s.map Char.toLower ∈ qualityKeys →
      resolveQuality s = s.map Char.toLower) ∧
    (∀ s : List Char, (∀ k : ℤ, parseIntJS s = some k → k < 1 ∨ 8 < k) →
      s.map Char.toLower ∉ qualityKeys →
      s.map Char.toLower ∉ inheritedLowercaseKeys →
      resolveQuality s = "best".toList) ∧
    resolveQuality ("720".toList) = "720".toList := by
  refine ⟨?_, ?_, ?_, by decide⟩
  · intro s k hk h1 h8
    have hrange : 0 ≤ k - 1 ∧ k - 1 < 8 := by omega
    have hmem : qualityKeys.getD (k - 1).toNat ("best".toList) ∈ qualityKeys := by
      interval_cases k <;> decide
    simp only [resolveQuality, hk, if_pos hrange]
    rw [if_pos (Or.inl hmem)]
  · intro s hout hmem
    have hne : (s.map Char.toLower).isEmpty = false := by
      rcases s with _ | ⟨c, t⟩
      · exact absurd hmem (by decide)
      · rfl
    cases hk : parseIntJS s with
    | none =>
      simp only [resolveQuality, hk, hne, Bool.false_eq_true, if_false]
      rw [if_pos (Or.inl hmem)]
    | some k =>
      have : k < 1 ∨ 8 < k := hout k hk
      simp only [resolveQuality, hk, hne, Bool.false_eq_true, if_false,
        if_neg (show ¬(0 ≤ k - 1 ∧ k - 1 < 8) by omega)]
      rw [if_pos (Or.inl hmem)]
  · intro s hout hmem hinh
    by_cases hs : (s.map Char.toLower).isEmpty = true
    · have hbest : ("best".toList) ∈ qualityKeys := by decide
      cases hk : parseIntJS s with
      | none =>
        simp only [resolveQuality, hk, hs, if_true]
        rw [if_pos (Or.inl hbest)]
      | some k =>
        have : k < 1 ∨ 8 < k := hout k hk
        simp only [resolveQuality, hk, hs, if_true,
          if_neg (show ¬(0 ≤ k - 1 ∧ k - 1 < 8) by omega)]
        rw [if_pos (Or.inl hbest)]
    · have hne : (s.map Char.toLower).isEmpty = false := by
        simpa using hs
      cases hk : parseIntJS s with
      | none =>
        simp only [resolveQuality, hk, hne, Bool.false_eq_true, if_false]
        rw [if_neg (by simpa using ⟨hmem, hinh⟩)]
      | some k =>
        have : k < 1 ∨ 8 < k := hout k hk
        simp only [resolveQuality, hk, hne, Bool.false_eq_true, if_false,
          if_neg (show ¬(0 ≤ k - 1 ∧ k - 1 < 8) by omega)]
        rw [if_neg (by simpa using ⟨hmem, hinh⟩)]

/-- C9, witness: the three amended cases at concrete inputs — an ordinal
with trailing garbage, a case-insensitive key, and an unknown word. -/
theorem claim9_witness :
    resolveQuality ("3".toList) = "720".toList ∧
    resolveQuality ("AUDIO".toList) = "audio".toList ∧
    resolveQuality ("foo".toList) = "best".toList := by
  refine ⟨?_, ?_, ?_⟩
  · have h := claim9_amended.1 ("3".toList) 3 (by decide) (by decide) (by decide)
    rw [h]
    decide
  · have h := claim9_amended.2.1 ("AUDIO".toList)
      (fun k hk => by rw [show parseIntJS ("AUDIO".toList) = none by decide] at hk
                      cases hk)
      (by decide)
    rw [h]
    decide
  · exact claim9_amended.2.2.1 ("foo".toList)
      (fun k hk => by rw [show parseIntJS ("foo".toList) = none by decide] at hk
                      cases hk)
      (by decide) (by decide)

/-- C10: for every `n ≥ 1024^5` the unit index is at least 5, past the
end of the table, so the rendered unit is the out-of-bounds placeholder
`undefined` rather than any of Bytes/KB/MB/GB/TB — there is no clamping
to TB. -/
theorem claim10_overflow (n : ℕ) (h : 1024 ^ 5 ≤ n) :
    sizesList.getD (jsLogIndex n) "undefined" = "undefined" ∧
    "undefined" ∉ sizesList ∧
    formatBytes n =
      stripTrailingZeros (mantissaHundredths n (jsLogIndex n)) ++ " " ++
        "undefined" := by
  have hpow : (1024 : ℕ) ^ 5 = 1125899906842624 := by norm_num
  have hn0 : n ≠ 0 := by omega
  have h5 : 5 ≤ jsLogIndex n := by
    rw [jsLogIndex, if_pos (by omega)]
    exact le_max_left 5 _
  have hlen : sizesList.length ≤ jsLogIndex n := by
    simpa [sizesList] using h5
  have hgetD : sizesList.getD (jsLogIndex n) "undefined" = "undefined" := by
    rw [List.getD_eq_getElem?_getD, List.getElem?_eq_none hlen]
    rfl
  refine ⟨hgetD, by decide, ?_⟩
  rw [formatBytes, if_neg hn0, hgetD]

/-- C10, witness: the overflow behaviour at exactly `n = 1024^5`, where
the output is `1 undefined`. -/
theorem claim10_witness :
    (sizesList.getD (jsLogIndex (1024 ^ 5)) "undefined" = "undefined" ∧
      "undefined" ∉ sizesList ∧
      formatBytes (1024 ^ 5) =
        stripTrailingZeros (mantissaHundredths (1024 ^ 5) (jsLogIndex (1024 ^ 5))) ++
          " " ++ "undefined") ∧
    formatBytes (1024 ^ 5) = "1 undefined" :=
  ⟨claim10_overflow (1024 ^ 5) le_rfl, by decide⟩

end YtVd
